import Mathlib

/-!
Shallow embedding of the user-domain core of the `rust-template` repository:
the `Email` value object, the `User` entity, the in-memory repository
(`InMemoryUserRepository`), and the `UserService` orchestration logic.

Modelling conventions:
* Rust `String` is modelled as `List Char` (`Str`).  Rust's Unicode
  `to_lowercase` is modelled per-character with `Char.toLower`; the claims
  under verification do not depend on multi-character Unicode case mappings.
* `Uuid` (random 128-bit id) and `DateTime<Utc>` are modelled as `Nat`;
  calls to `UserId::new()` and `Utc::now()` become explicit parameters
  (`freshId`, `now`) of the operations that invoke them.
* The `HashMap<UserId, User>` behind the repository's `RwLock` is modelled
  as an association list; `insert` replaces the entry in place when the key
  is present and appends otherwise.  Iteration order of a Rust `HashMap` is
  unspecified, so fixing the list order is a harmless refinement.
* All execution is single-threaded, so the `RwLock` can never be poisoned
  and the `Infrastructure` error branch of the repository operations is
  unreachable; the repository operations are therefore modelled as total
  pure functions on the store.
* `tokio::spawn` of the welcome email in `register` is modelled by passing
  the notification backend's outcome as a parameter and collecting the
  warning log the spawned task would emit; the spawned task's outcome is
  dropped from the returned value, exactly as the source drops the
  `JoinHandle`.
-/

/-- Rust `String`, modelled as a list of characters. -/
abbrev Str := List Char

/-- Rust `str::to_lowercase`, modelled per character. -/
def toLowercase (s : Str) : Str := s.map Char.toLower

/-- Rust `str::split(c)`: splits at every occurrence of `c`; the result
always has one more element than the number of occurrences of `c`. -/
def splitChar (c : Char) : Str → List Str
  | [] => [[]]
  | x :: xs =>
    if x = c then [] :: splitChar c xs
    else
      match splitChar c xs with
      | [] => [[x]]
      | p :: ps => (x :: p) :: ps

/-- The closed error taxonomy `DomainError` from `src/domain/errors.rs`.
`NotFound` carries the `entity_type` string and the offending id;
`Infrastructure` wraps an underlying message. -/
inductive DomainError where
  | NotFound (entity_type : Str) (id : Nat)
  | ValidationError (msg : Str)
  | BusinessRuleViolation (msg : Str)
  | Conflict (msg : Str)
  | Infrastructure (msg : Str)
deriving DecidableEq

/-- The `Email` value object: a wrapper around the normalized string.
The smart constructor is `Email.new` below. -/
structure Email where
  val : Str
deriving DecidableEq

/-- `Email::new` from `src/domain/entities/user.rs` lines 46-68:
reject empty input, input without `@`, input not splitting at `@` into
exactly two non-empty parts, and a domain part without a dot; on success
wrap the lowercased input. -/
def Email.new (value : Str) : Except DomainError Email :=
  if value = [] then
    .error (.ValidationError "Email cannot be empty".data)
  else if '@' ∉ value then
    .error (.ValidationError "Email must contain @".data)
  else
    let parts := splitChar '@' value
    if parts.length ≠ 2 ∨ parts.headD [] = [] ∨ parts.getD 1 [] = [] then
      .error (.ValidationError "Invalid email format".data)
    else if '.' ∉ parts.getD 1 [] then
      .error (.ValidationError "Email domain must contain a dot".data)
    else
      .ok ⟨toLowercase value⟩

/-- The `User` entity: id, email, display name and the two timestamps. -/
structure User where
  id : Nat
  email : Email
  name : Str
  created_at : Nat
  updated_at : Nat
deriving DecidableEq

/-- `User::new`: a fresh id and a single clock reading used for both
timestamps.  The id and the clock reading are explicit parameters. -/
def User.new (freshId : Nat) (now : Nat) (email : Email) (name : Str) : User :=
  { id := freshId, email := email, name := name, created_at := now, updated_at := now }

/-- `User::update_name`: set the name and refresh `updated_at` from the
clock (explicit parameter `now`). -/
def User.update_name (u : User) (now : Nat) (name : Str) : User :=
  { u with name := name, updated_at := now }

/-- The in-memory store: the `HashMap<UserId, User>` behind the lock,
modelled as an association list from id to user. -/
structure Store where
  users : List (Nat × User)
deriving DecidableEq

namespace InMemory

/-- `InMemoryUserRepository::find_by_id`: look the id up in the map. -/
def find_by_id (s : Store) (id : Nat) : Option User :=
  (s.users.find? (fun p => p.1 == id)).map Prod.snd

/-- `InMemoryUserRepository::find_by_email`: scan the values for the first
user with the given email. -/
def find_by_email (s : Store) (e : Email) : Option User :=
  (s.users.find? (fun p => p.2.email == e)).map Prod.snd

/-- `InMemoryUserRepository::save`: `HashMap::insert` keyed by `user.id` —
replace the entry in place when the key is present, append otherwise. -/
def save (s : Store) (u : User) : Store :=
  if s.users.any (fun p => p.1 == u.id) then
    ⟨s.users.map (fun p => if p.1 == u.id then (u.id, u) else p)⟩
  else
    ⟨s.users ++ [(u.id, u)]⟩

/-- `InMemoryUserRepository::delete`: `HashMap::remove`; removing an
absent key is a no-op, never an error. -/
def delete (s : Store) (id : Nat) : Store :=
  ⟨s.users.filter (fun p => p.1 != id)⟩

/-- `InMemoryUserRepository::list`: the values of the map. -/
def listUsers (s : Store) : List User :=
  s.users.map Prod.snd

end InMemory

/-- The `entity_type` string carried by `DomainError::not_found::<User>`. -/
def userTypeName : Str := "User".data

namespace UserService

/-- `UserService::get_by_id`: repository lookup, absence mapped to
`NotFound`. -/
def get_by_id (s : Store) (id : Nat) : Except DomainError User :=
  match InMemory.find_by_id s id with
  | some u => .ok u
  | none => .error (.NotFound userTypeName id)

/-- `UserService::get_by_email` as written in the source
(`user_service.rs` lines 103-109): validate the raw email, look it up,
and map absence to `DomainError::validation("User not found")`. -/
def get_by_email (s : Store) (raw : Str) : Except DomainError User :=
  match Email.new raw with
  | .error e => .error e
  | .ok email =>
    match InMemory.find_by_email s email with
    | some u => .ok u
    | none => .error (.ValidationError "User not found".data)

/-- `UserService::register`: validate, duplicate-email check, create with
a fresh id and one clock reading, save, then fire-and-forget the welcome
email.  `sendResult` is the notification backend's outcome; the third
component of the result is the warning log the spawned task emits, which
the caller of `register` never sees. -/
def register (s : Store) (freshId : Nat) (now : Nat)
    (sendResult : Except DomainError Unit) (emailRaw name : Str) :
    Except DomainError User × Store × List Str :=
  match Email.new emailRaw with
  | .error e => (.error e, s, [])
  | .ok email =>
    if (InMemory.find_by_email s email).isSome then
      (.error (.Conflict ("User with email ".data ++ email.val ++ " already exists".data)),
       s, [])
    else
      let user := User.new freshId now email name
      let s1 := InMemory.save s user
      let log :=
        match sendResult with
        | .error _ => ["Failed to send welcome email".data]
        | .ok _ => []
      (.ok user, s1, log)

/-- `UserService::update_name`: load via `get_by_id`, mutate, save. -/
def update_name (s : Store) (id : Nat) (now : Nat) (newName : Str) :
    Except DomainError User × Store :=
  match get_by_id s id with
  | .error e => (.error e, s)
  | .ok u =>
    let u1 := u.update_name now newName
    (.ok u1, InMemory.save s u1)

/-- `UserService::delete`: existence check via `get_by_id`, then the
idempotent repository delete. -/
def delete (s : Store) (id : Nat) : Except DomainError Unit × Store :=
  match get_by_id s id with
  | .error e => (.error e, s)
  | .ok _ => (.ok (), InMemory.delete s id)

end UserService

/-- A sequence of raw store operations (`save`/`delete` on the
repository), used to state invariant preservation. -/
inductive RepoOp where
  | saveOp (u : User)
  | deleteOp (id : Nat)

/-- Apply a sequence of repository operations to a store. -/
def applyOps (s : Store) : List RepoOp → Store
  | [] => s
  | .saveOp u :: rest => applyOps (InMemory.save s u) rest
  | .deleteOp id :: rest => applyOps (InMemory.delete s id) rest

/-- The store invariant: at most one user per id (the key list has no
duplicates). -/
def AtMostOnePerId (s : Store) : Prop :=
  (s.users.map Prod.fst).Nodup

/-- The spec's validity condition on a raw email string: exactly one `@`
separating a non-empty local part from a non-empty domain part, and the
domain part contains at least one dot. -/
def EmailValid (v : Str) : Prop :=
  ∃ l d : Str, v = l ++ '@' :: d ∧ '@' ∉ l ∧ '@' ∉ d ∧ l ≠ [] ∧ d ≠ [] ∧ '.' ∈ d

/-- A concrete user for the concrete-input witnesses: the value
`register` creates on an empty store from id 0, clock 0, raw email
`"a@b.com"` and name `"X"`. -/
def sampleUser : User :=
  { id := 0, email := ⟨"a@b.com".data⟩, name := "X".data,
    created_at := 0, updated_at := 0 }

/-- The one-entry store holding `sampleUser`. -/
def sampleStore : Store := ⟨[(0, sampleUser)]⟩

theorem splitChar_ne_nil (c : Char) (v : Str) : splitChar c v ≠ [] := by
  cases v with
  | nil => simp [splitChar]
  | cons x xs =>
    simp only [splitChar]
    split
    · exact List.cons_ne_nil _ _
    · split
      · exact List.cons_ne_nil _ _
      · exact List.cons_ne_nil _ _

theorem splitChar_of_not_mem {c : Char} {v : Str} (h : c ∉ v) : splitChar c v = [v] := by
  induction v with
  | nil => rfl
  | cons x xs ih =>
    have hx : ¬ x = c := fun he => h (he ▸ List.mem_cons_self x xs)
    have hxs : c ∉ xs := fun hm => h (List.mem_cons_of_mem x hm)
    simp only [splitChar, if_neg hx]
    rw [ih hxs]

theorem splitChar_append {c : Char} {l : Str} (r : Str) (h : c ∉ l) :
    splitChar c (l ++ c :: r) = l :: splitChar c r := by
  induction l with
  | nil => simp [splitChar]
  | cons x xs ih =>
    have hx : ¬ x = c := fun he => h (he ▸ List.mem_cons_self x xs)
    have hxs : c ∉ xs := fun hm => h (List.mem_cons_of_mem x hm)
    simp only [List.cons_append, splitChar, List.append_eq, if_neg hx]
    rw [ih hxs]

theorem splitChar_cons_self (c : Char) (xs : Str) :
    splitChar c (c :: xs) = [] :: splitChar c xs := by
  simp [splitChar]

theorem splitChar_eq_single {c : Char} {v l : Str} (h : splitChar c v = [l]) :
    v = l ∧ c ∉ l := by
  induction v generalizing l with
  | nil =>
    simp only [splitChar, List.cons.injEq] at h
    obtain ⟨h1, -⟩ := h
    subst h1
    simp
  | cons x xs ih =>
    by_cases hx : x = c
    · subst hx
      rw [splitChar_cons_self] at h
      simp only [List.cons.injEq] at h
      exact absurd h.2 (splitChar_ne_nil x xs)
    · simp only [splitChar, if_neg hx] at h
      cases hsp : splitChar c xs with
      | nil => exact absurd hsp (splitChar_ne_nil c xs)
      | cons p ps =>
        rw [hsp] at h
        simp only [List.cons.injEq] at h
        obtain ⟨h1, h2⟩ := h
        subst h2
        obtain ⟨hv, hc⟩ := ih hsp
        subst hv
        subst h1
        refine ⟨rfl, ?_⟩
        simp only [List.mem_cons, not_or]
        exact ⟨fun he => hx he.symm, hc⟩

theorem splitChar_eq_pair {c : Char} {v l d : Str} (h : splitChar c v = [l, d]) :
    v = l ++ c :: d ∧ c ∉ l ∧ c ∉ d := by
  induction v generalizing l d with
  | nil => simp [splitChar] at h
  | cons x xs ih =>
    by_cases hx : x = c
    · subst hx
      rw [splitChar_cons_self] at h
      simp only [List.cons.injEq] at h
      obtain ⟨h1, h2⟩ := h
      obtain ⟨hv, hc⟩ := splitChar_eq_single h2
      subst hv
      subst h1
      exact ⟨rfl, by simp, hc⟩
    · simp only [splitChar, if_neg hx] at h
      cases hsp : splitChar c xs with
      | nil => exact absurd hsp (splitChar_ne_nil c xs)
      | cons p ps =>
        rw [hsp] at h
        simp only [List.cons.injEq] at h
        obtain ⟨h1, h2⟩ := h
        subst h2
        obtain ⟨hv, hcl, hcd⟩ := ih hsp
        subst hv
        subst h1
        refine ⟨rfl, ?_, hcd⟩
        simp only [List.mem_cons, not_or]
        exact ⟨fun he => hx he.symm, hcl⟩

theorem email_new_ok_iff (v : Str) : (∃ e, Email.new v = .ok e) ↔ EmailValid v := by
  constructor
  · rintro ⟨e, he⟩
    simp only [Email.new] at he
    split_ifs at he with h1 h2 h3 h4
    push_neg at h3
    obtain ⟨hlen, hhead, htail⟩ := h3
    obtain ⟨l, d, hld⟩ := List.length_eq_two.mp hlen
    obtain ⟨hv, hcl, hcd⟩ := splitChar_eq_pair hld
    rw [hld] at hhead htail h4
    simp only [List.headD_cons, List.getD_cons_succ, List.getD_cons_zero]
      at hhead htail h4
    exact ⟨l, d, hv, hcl, hcd, hhead, htail, h4⟩
  · rintro ⟨l, d, rfl, hcl, hcd, hl, hd, hdot⟩
    refine ⟨⟨toLowercase (l ++ '@' :: d)⟩, ?_⟩
    have hne : l ++ '@' :: d ≠ [] := by simp
    have hmem : '@' ∈ l ++ '@' :: d := List.mem_append_right l (List.mem_cons_self _ _)
    have hsp : splitChar '@' (l ++ '@' :: d) = [l, d] := by
      rw [splitChar_append d hcl, splitChar_of_not_mem hcd]
    simp only [Email.new, if_neg hne, hsp]
    rw [if_neg (by simp [hmem])]
    rw [if_neg (by simp [hl, hd])]
    rw [if_neg (by simp [hdot])]

theorem email_new_ok_val {v : Str} {e : Email} (h : Email.new v = .ok e) :
    e.val = toLowercase v := by
  simp only [Email.new] at h
  split_ifs at h
  simp only [Except.ok.injEq] at h
  rw [← h]

theorem email_new_err_validation {v : Str} {err : DomainError}
    (h : Email.new v = .error err) : ∃ msg, err = .ValidationError msg := by
  simp only [Email.new] at h
  split_ifs at h <;>
    exact ⟨_, (by simpa using h.symm : err = _)⟩

/-- C1: `Email::new` succeeds exactly when the input has exactly one `@`
separating a non-empty local part from a non-empty domain part whose
domain contains a dot; on success it returns the lowercased string, and on
every other input it fails with a `ValidationError`. -/
theorem email_new_spec (v : Str) :
    ((∃ e, Email.new v = .ok e) ↔ EmailValid v)
    ∧ (∀ e, Email.new v = .ok e → e.val = toLowercase v)
    ∧ (∀ err, Email.new v = .error err → ∃ msg, err = .ValidationError msg) :=
  ⟨email_new_ok_iff v, fun _ he => email_new_ok_val he,
   fun _ he => email_new_err_validation he⟩

/-- Witness for C1 at the concrete inputs named by the spec. -/
theorem email_new_spec_witness :
    EmailValid "Test@Example.COM".data
    ∧ (⟨"test@example.com".data⟩ : Email).val = toLowercase "Test@Example.COM".data
    ∧ (∃ msg, DomainError.ValidationError "Email must contain @".data
        = .ValidationError msg) := by
  have h := email_new_spec "Test@Example.COM".data
  refine ⟨h.1.mp ⟨⟨"test@example.com".data⟩, by rfl⟩, ?_, ?_⟩
  · exact h.2.1 ⟨"test@example.com".data⟩ (by rfl)
  · exact (email_new_spec "invalid-email".data).2.2 _ (by rfl)


theorem find_map_replace {l : List (Nat × User)} {i : Nat} (u : User)
    (h : l.any (fun p => p.1 == i) = true) :
    (l.map (fun p => if p.1 == i then (i, u) else p)).find? (fun p => p.1 == i)
      = some (i, u) := by
  induction l with
  | nil => simp at h
  | cons a l ih =>
    simp only [List.map_cons]
    by_cases ha : a.1 = i
    · rw [if_pos (by simpa using ha)]
      exact List.find?_cons_of_pos _ (by simp)
    · rw [if_neg (by simpa using ha)]
      rw [List.find?_cons_of_neg _ (by simpa using ha)]
      apply ih
      simpa [ha] using h

theorem find_append_not_any {l : List (Nat × User)} {i : Nat} (u : User)
    (h : l.any (fun p => p.1 == i) = false) :
    (l ++ [(i, u)]).find? (fun p => p.1 == i) = some (i, u) := by
  have hnone : l.find? (fun p => p.1 == i) = none :=
    List.find?_eq_none.mpr (fun x hx => List.any_eq_false.mp h x hx)
  rw [List.find?_append, hnone]
  simp

theorem find_by_id_save (s : Store) (u : User) :
    InMemory.find_by_id (InMemory.save s u) u.id = some u := by
  rw [InMemory.save]
  split
  next h =>
    rw [InMemory.find_by_id]
    rw [find_map_replace u h]
    rfl
  next h =>
    rw [InMemory.find_by_id]
    rw [find_append_not_any u (Bool.not_eq_true _ ▸ h)]
    rfl

/-- C3: `save(u)` followed by `find_by_id(u.id)` returns `u`, for every
user and every prior state of the in-memory store. -/
theorem save_find_by_id_roundtrip (s : Store) (u : User) :
    InMemory.find_by_id (InMemory.save s u) u.id = some u :=
  find_by_id_save s u

theorem find_by_id_delete (s : Store) (id : Nat) :
    InMemory.find_by_id (InMemory.delete s id) id = none := by
  rw [InMemory.delete, InMemory.find_by_id]
  have : (s.users.filter (fun p => p.1 != id)).find? (fun p => p.1 == id) = none := by
    apply List.find?_eq_none.mpr
    intro x hx
    have hq := List.of_mem_filter hx
    simp only [bne_iff_ne, ne_eq] at hq
    simpa using hq
  rw [this]
  rfl

theorem delete_delete (s : Store) (id : Nat) :
    InMemory.delete (InMemory.delete s id) id = InMemory.delete s id := by
  simp only [InMemory.delete, List.filter_filter, Bool.and_self]

/-- C5: repository `delete` is idempotent — the second `delete` is a no-op
(and in particular not an error), and `find_by_id` returns absence after
either delete. -/
theorem delete_idempotent (s : Store) (id : Nat) :
    InMemory.delete (InMemory.delete s id) id = InMemory.delete s id
    ∧ InMemory.find_by_id (InMemory.delete s id) id = none
    ∧ InMemory.find_by_id (InMemory.delete (InMemory.delete s id) id) id = none :=
  ⟨delete_delete s id, find_by_id_delete s id,
   find_by_id_delete (InMemory.delete s id) id⟩

theorem atMostOne_save {s : Store} (u : User) (h : AtMostOnePerId s) :
    AtMostOnePerId (InMemory.save s u) := by
  rw [InMemory.save]
  split
  next hany =>
    have hmap : (s.users.map (fun p => if p.1 == u.id then (u.id, u) else p)).map Prod.fst
        = s.users.map Prod.fst := by
      rw [List.map_map]
      apply List.map_congr_left
      intro p hp
      by_cases hpi : p.1 = u.id
      · simp [hpi]
      · simp [hpi]
    unfold AtMostOnePerId
    rw [hmap]
    exact h
  next hany =>
    have hfresh : u.id ∉ s.users.map Prod.fst := by
      intro hm
      obtain ⟨p, hp, hpe⟩ := List.mem_map.mp hm
      have hf := List.any_eq_false.mp (Bool.not_eq_true _ ▸ hany) p hp
      simp [hpe] at hf
    unfold AtMostOnePerId
    simp only [List.map_append, List.map_cons, List.map_nil]
    rw [List.nodup_append]
    refine ⟨h, List.nodup_singleton _, ?_⟩
    intro a ha hb
    simp only [List.mem_singleton] at hb
    exact hfresh (hb ▸ ha)

theorem atMostOne_delete {s : Store} (id : Nat) (h : AtMostOnePerId s) :
    AtMostOnePerId (InMemory.delete s id) := by
  unfold AtMostOnePerId InMemory.delete at *
  exact List.Nodup.sublist (List.Sublist.map Prod.fst (List.filter_sublist _)) h

theorem atMostOne_applyOps (ops : List RepoOp) (s : Store) (h : AtMostOnePerId s) :
    AtMostOnePerId (applyOps s ops) := by
  induction ops generalizing s with
  | nil => exact h
  | cons op rest ih =>
    cases op with
    | saveOp u => exact ih _ (atMostOne_save u h)
    | deleteOp id => exact ih _ (atMostOne_delete id h)

/-- C9: `save` is an upsert keyed by id — a second `save` with the same id
overwrites the first — and every sequence of `save`/`delete` operations
preserves the at-most-one-user-per-id store invariant. -/
theorem save_upsert_invariant (s : Store) (u u1 : User) (ops : List RepoOp)
    (h : u.id = u1.id) (hinv : AtMostOnePerId s) :
    InMemory.find_by_id (InMemory.save (InMemory.save s u) u1) u.id = some u1
    ∧ AtMostOnePerId (applyOps s ops) := by
  refine ⟨?_, atMostOne_applyOps ops s hinv⟩
  rw [h]
  exact find_by_id_save _ u1

theorem mem_save_self (s : Store) (u : User) :
    (u.id, u) ∈ (InMemory.save s u).users := by
  rw [InMemory.save]
  split
  next hany =>
    obtain ⟨p, hp, hpe⟩ := List.any_eq_true.mp hany
    exact List.mem_map.mpr ⟨p, hp, by simp [show p.1 = u.id by simpa using hpe]⟩
  next =>
    exact List.mem_append_right _ (List.mem_singleton.mpr rfl)

theorem find_by_email_save_isSome (s : Store) (u : User) :
    (InMemory.find_by_email (InMemory.save s u) u.email).isSome = true := by
  rw [InMemory.find_by_email, Option.isSome_map']
  exact List.find?_isSome.mpr ⟨(u.id, u), mem_save_self s u, by simp⟩

theorem find_by_email_none_iff {s : Store} {e : Email} :
    InMemory.find_by_email s e = none ↔ ∀ p ∈ s.users, p.2.email ≠ e := by
  rw [InMemory.find_by_email, Option.map_eq_none', List.find?_eq_none]
  simp

theorem save_append_of_fresh {s : Store} {u : User}
    (hfresh : ∀ p ∈ s.users, p.1 ≠ u.id) :
    (InMemory.save s u).users = s.users ++ [(u.id, u)] := by
  rw [InMemory.save]
  split
  next hany =>
    obtain ⟨p, hp, hpe⟩ := List.any_eq_true.mp hany
    exact absurd (by simpa using hpe) (hfresh p hp)
  next => rfl

theorem register_ok_elim {s : Store} {fid now : Nat} {r : Except DomainError Unit}
    {raw name : Str} {u : User} {s1 : Store} {lg : List Str}
    (h : UserService.register s fid now r raw name = (.ok u, s1, lg)) :
    ∃ e, Email.new raw = .ok e ∧ InMemory.find_by_email s e = none
      ∧ u = User.new fid now e name ∧ s1 = InMemory.save s u := by
  cases hE : Email.new raw with
  | error e =>
    simp only [UserService.register, hE] at h
    simp at h
  | ok email =>
    simp only [UserService.register, hE] at h
    split at h
    next hf =>
      simp at h
    next hf =>
      rw [Prod.mk.injEq, Prod.mk.injEq] at h
      obtain ⟨h1, h2, -⟩ := h
      rw [Except.ok.injEq] at h1
      refine ⟨email, rfl, Option.not_isSome_iff_eq_none.mp (by simpa using hf),
        h1.symm, ?_⟩
      rw [← h2, h1]

/-- C4: the code diverges from the spec here — for a well-formed email
with no matching record, `UserService::get_by_email` returns
`ValidationError("User not found")`, not the `NotFound` kind the spec
reserves for missing records.  Evaluated at the concrete failing input
`"a@b.com"` against the empty store. -/
theorem get_by_email_missing_is_validation :
    UserService.get_by_email ⟨[]⟩ "a@b.com".data
      = .error (.ValidationError "User not found".data) := by rfl

/-- C7: for an id with no current record, `UserService::delete` fails with
`NotFound` (the existence check runs before the repository delete) and the
store is unchanged by the failed call. -/
theorem service_delete_absent_notfound (s : Store) (id : Nat)
    (h : InMemory.find_by_id s id = none) :
    UserService.delete s id = (.error (.NotFound userTypeName id), s) := by
  simp only [UserService.delete, UserService.get_by_id, h]

/-- Witness for C7: deleting id 0 from the empty store. -/
theorem service_delete_absent_notfound_witness :
    UserService.delete ⟨[]⟩ 0 = (.error (.NotFound userTypeName 0), ⟨[]⟩) :=
  service_delete_absent_notfound ⟨[]⟩ 0 rfl

theorem register_ignores_send (s : Store) (fid now : Nat)
    (r1 r2 : Except DomainError Unit) (raw name : Str) :
    (UserService.register s fid now r1 raw name).1
      = (UserService.register s fid now r2 raw name).1
    ∧ (UserService.register s fid now r1 raw name).2.1
      = (UserService.register s fid now r2 raw name).2.1 := by
  cases hE : Email.new raw with
  | error e => simp [UserService.register, hE]
  | ok email =>
    simp only [UserService.register, hE]
    split
    · exact ⟨rfl, rfl⟩
    · exact ⟨rfl, rfl⟩

/-- C8: the result of `register` is independent of the notification
outcome — if a run with notification outcome `r1` succeeds with user `u`,
the run differing only in the notification outcome `r2` returns the same
user and produces the same store. -/
theorem register_notification_independent (s : Store) (fid now : Nat)
    (r1 r2 : Except DomainError Unit) (raw name : Str) (u : User)
    (h : (UserService.register s fid now r1 raw name).1 = .ok u) :
    (UserService.register s fid now r2 raw name).1 = .ok u
    ∧ (UserService.register s fid now r2 raw name).2.1
      = (UserService.register s fid now r1 raw name).2.1 := by
  obtain ⟨h1, h2⟩ := register_ignores_send s fid now r1 r2 raw name
  exact ⟨h1 ▸ h, h2.symm⟩

/-- Witness for C8: registration against a notification backend that
always fails still reports success with the same user and store as a run
whose notification succeeds. -/
theorem register_notification_independent_witness :
    (UserService.register ⟨[]⟩ 0 0 (.error (.Infrastructure "send failed".data))
        "a@b.com".data "X".data).1 = .ok sampleUser
    ∧ (UserService.register ⟨[]⟩ 0 0 (.error (.Infrastructure "send failed".data))
        "a@b.com".data "X".data).2.1
      = (UserService.register ⟨[]⟩ 0 0 (.ok ()) "a@b.com".data "X".data).2.1 :=
  register_notification_independent ⟨[]⟩ 0 0 (.ok ())
    (.error (.Infrastructure "send failed".data)) "a@b.com".data "X".data
    sampleUser (by rfl)

/-- C10: a successful `register` returns exactly the user it saved (the
final store is the prior store with that very user saved), and that user
has `created_at = updated_at`, both set to the single clock reading taken
at construction. -/
theorem register_returns_saved (s : Store) (fid now : Nat)
    (r : Except DomainError Unit) (raw name : Str) (u : User) (s1 : Store)
    (lg : List Str)
    (h : UserService.register s fid now r raw name = (.ok u, s1, lg)) :
    s1 = InMemory.save s u ∧ u.created_at = now ∧ u.updated_at = now
    ∧ u.created_at = u.updated_at := by
  obtain ⟨e, -, -, hu, hs⟩ := register_ok_elim h
  subst hu
  exact ⟨hs, rfl, rfl, rfl⟩

/-- Witness for C10: the concrete successful registration on the empty
store. -/
theorem register_returns_saved_witness :
    Store.mk [(0, sampleUser)] = InMemory.save ⟨[]⟩ sampleUser
    ∧ sampleUser.created_at = 0 ∧ sampleUser.updated_at = 0
    ∧ sampleUser.created_at = sampleUser.updated_at :=
  register_returns_saved ⟨[]⟩ 0 0 (.ok ()) "a@b.com".data "X".data
    sampleUser ⟨[(0, sampleUser)]⟩ [] (by rfl)

/-- C6: `update_name` on an existing record sets the name, strictly
advances `updated_at` (to the fresh clock reading, strictly past the old
value whenever the clock has advanced), and persists the result; on an
absent id it fails with `NotFound` and leaves the store unchanged. -/
theorem update_name_spec (s : Store) (id : Nat) (now : Nat) (newName : Str) :
    (∀ u, InMemory.find_by_id s id = some u → u.updated_at < now →
      ∃ u1, UserService.update_name s id now newName = (.ok u1, InMemory.save s u1)
        ∧ u1.name = newName ∧ u.updated_at < u1.updated_at ∧ u1.updated_at = now
        ∧ u1.id = u.id ∧ u1.email = u.email ∧ u1.created_at = u.created_at
        ∧ InMemory.find_by_id (UserService.update_name s id now newName).2 u1.id
            = some u1)
    ∧ (InMemory.find_by_id s id = none →
        UserService.update_name s id now newName
          = (.error (.NotFound userTypeName id), s)) := by
  constructor
  · intro u hu hlt
    refine ⟨u.update_name now newName, ?_, rfl, hlt, rfl, rfl, rfl, rfl, ?_⟩
    · simp only [UserService.update_name, UserService.get_by_id, hu]
    · simp only [UserService.update_name, UserService.get_by_id, hu]
      exact find_by_id_save s _
  · intro hn
    simp only [UserService.update_name, UserService.get_by_id, hn]

/-- Witness for C6: renaming the sample user at clock 1, and the
`NotFound` failure for id 5 on the empty store. -/
theorem update_name_spec_witness :
    (∃ u1, UserService.update_name sampleStore 0 1 "New".data
        = (.ok u1, InMemory.save sampleStore u1)
      ∧ u1.name = "New".data ∧ sampleUser.updated_at < u1.updated_at
      ∧ u1.updated_at = 1 ∧ u1.id = sampleUser.id ∧ u1.email = sampleUser.email
      ∧ u1.created_at = sampleUser.created_at
      ∧ InMemory.find_by_id
          (UserService.update_name sampleStore 0 1 "New".data).2 u1.id = some u1)
    ∧ UserService.update_name ⟨[]⟩ 5 1 "New".data
        = (.error (.NotFound userTypeName 5), ⟨[]⟩) :=
  ⟨(update_name_spec sampleStore 0 1 "New".data).1 sampleUser (by rfl) (by decide),
   (update_name_spec ⟨[]⟩ 5 1 "New".data).2 (by rfl)⟩

/-- C2: after a successful `register` for an email, a second `register`
with the same raw email (any name, any fresh id and clock) fails with
`Conflict`, leaves the store unchanged, and the store holds exactly one
record with that email.  `hfresh` says the first call's fresh id is not
already a key of the store, faithful to the spec's treatment of random id
collisions as negligible. -/
theorem register_duplicate_conflict (s : Store) (fid1 fid2 t1 t2 : Nat)
    (r1 r2 : Except DomainError Unit) (raw n1 n2 : Str)
    (u : User) (s1 : Store) (lg : List Str)
    (hfresh : ∀ p ∈ s.users, p.1 ≠ fid1)
    (h : UserService.register s fid1 t1 r1 raw n1 = (.ok u, s1, lg)) :
    (∃ msg, (UserService.register s1 fid2 t2 r2 raw n2).1 = .error (.Conflict msg))
    ∧ (UserService.register s1 fid2 t2 r2 raw n2).2.1 = s1
    ∧ (s1.users.filter (fun p => p.2.email == u.email)).length = 1 := by
  obtain ⟨e, hE, hnone, hu, hs1⟩ := register_ok_elim h
  have hue : u.email = e := by rw [hu]; rfl
  have hsome : (InMemory.find_by_email s1 e).isSome = true := by
    rw [hs1, ← hue]
    exact find_by_email_save_isSome s u
  refine ⟨⟨"User with email ".data ++ e.val ++ " already exists".data, ?_⟩, ?_, ?_⟩
  · simp only [UserService.register, hE, if_pos hsome]
  · simp only [UserService.register, hE, if_pos hsome]
  · have hufid : u.id = fid1 := by rw [hu]; rfl
    have husers : s1.users = s.users ++ [(u.id, u)] := by
      rw [hs1]
      exact save_append_of_fresh (by rw [hufid]; exact hfresh)
    rw [husers, List.filter_append]
    have h0 : s.users.filter (fun p => p.2.email == u.email) = [] := by
      rw [List.filter_eq_nil_iff]
      intro p hp
      have hne := find_by_email_none_iff.mp hnone p hp
      simp [hue, hne]
    rw [h0]
    simp

/-- Witness for C2: register `a@b.com` as `X` on the empty store, then
register `a@b.com` as `Y`. -/
theorem register_duplicate_conflict_witness :
    (∃ msg, (UserService.register ⟨[(0, sampleUser)]⟩ 1 1 (.ok ())
        "a@b.com".data "Y".data).1 = .error (.Conflict msg))
    ∧ (UserService.register ⟨[(0, sampleUser)]⟩ 1 1 (.ok ())
        "a@b.com".data "Y".data).2.1 = ⟨[(0, sampleUser)]⟩
    ∧ ((⟨[(0, sampleUser)]⟩ : Store).users.filter
        (fun p => p.2.email == sampleUser.email)).length = 1 :=
  register_duplicate_conflict ⟨[]⟩ 0 1 0 1 (.ok ()) (.ok ())
    "a@b.com".data "X".data "Y".data sampleUser ⟨[(0, sampleUser)]⟩ []
    (by simp) (by rfl)

/-- Witness for C9: two saves with the same id on the empty store, then a
save/delete sequence, preserving the invariant. -/
theorem save_upsert_invariant_witness :
    InMemory.find_by_id
        (InMemory.save (InMemory.save ⟨[]⟩ sampleUser)
          (sampleUser.update_name 1 "Y".data)) sampleUser.id
      = some (sampleUser.update_name 1 "Y".data)
    ∧ AtMostOnePerId
        (applyOps ⟨[]⟩ [.saveOp sampleUser, .deleteOp 0]) :=
  save_upsert_invariant ⟨[]⟩ sampleUser (sampleUser.update_name 1 "Y".data)
    [.saveOp sampleUser, .deleteOp 0] rfl (by simp [AtMostOnePerId])
